import Mathlib

/-!
Verification of the rusty_blockchain core (src/main.rs): a proof-of-work
ledger with transactions, blocks, mining, chain validation and balance
queries.  The Rust source is shallowly embedded below:

* SHA-256 (the `sha2` crate's digest, an external collaborator of the
  core) is implemented executably over byte lists, with 32-bit words
  represented as `Nat` reduced `% 2^32`, and hex-encoded lowercase as
  `format!("\x7b:x\x7d", hasher.finalize())` does.
* `f64` fields (`amount`, `mining_reward`) are modelled as `Int`: every
  amount occurring in the program and its spec is integer-valued, and
  Rust's `Display` for an integer-valued `f64` prints the plain integer
  (`format!("\x7b\x7d", 50.0) = "50"`), which `toString : Int → String`
  reproduces; arithmetic on such values is exact in `f64`.
* `i64` timestamps are modelled as `Int`; they are runtime inputs
  (`Utc::now()`), so constructors take them as explicit parameters.
* `u64` nonces wrap at `2^64` as in release-mode Rust.
* The unbounded mining loop `while !self.hash.starts_with(&target)` is
  modelled with explicit fuel, returning `none` when the fuel runs out;
  `Blockchain` constructors and `mine_pending_transactions`, which mine
  synchronously, are therefore `Option`-valued.  `Option` also models
  the `unwrap()` panic on an empty chain in `get_latest_block`.
-/

set_option maxRecDepth 1000000

namespace RustyChain

/-! ## SHA-256 over byte lists -/

def M32 : Nat := 4294967296

def rotr32 (k n : Nat) : Nat :=
  ((n >>> k) ||| (n <<< (32 - k))) % M32

/-- The 64 SHA-256 round constants, in decimal. -/
def sha256K : List Nat :=
  [1116352408, 1899447441, 3049323471, 3921009573, 961987163, 1508970993,
   2453635748, 2870763221, 3624381080, 310598401, 607225278, 1426881987,
   1925078388, 2162078206, 2614888103, 3248222580, 3835390401, 4022224774,
   264347078, 604807628, 770255983, 1249150122, 1555081692, 1996064986,
   2554220882, 2821834349, 2952996808, 3210313671, 3336571891, 3584528711,
   113926993, 338241895, 666307205, 773529912, 1294757372, 1396182291,
   1695183700, 1986661051, 2177026350, 2456956037, 2730485921, 2820302411,
   3259730800, 3345764771, 3516065817, 3600352804, 4094571909, 275423344,
   430227734, 506948616, 659060556, 883997877, 958139571, 1322822218,
   1537002063, 1747873779, 1955562222, 2024104815, 2227730452, 2361852424,
   2428436474, 2756734187, 3204031479, 3329325298]

/-- The eight SHA-256 initial state words, in decimal. -/
def sha256H0 : List Nat :=
  [1779033703, 3144134277, 1013904242, 2773480762,
   1359893119, 2600822924, 528734635, 1541459225]

def natToBytesBE (k n : Nat) : List Nat :=
  (List.range k).map (fun i => (n >>> (8 * (k - 1 - i))) % 256)

def sha256Pad (msg : List Nat) : List Nat :=
  let l := msg.length
  let z := (119 - l % 64) % 64
  msg ++ (128 :: List.replicate z 0) ++ natToBytesBE 8 (8 * l)

def bytesToWordBE (bs : List Nat) : Nat :=
  bs.foldl (fun a b => a * 256 + b) 0

def chunkWords (chunk : List Nat) : List Nat :=
  (List.range 16).map (fun j => bytesToWordBE ((chunk.drop (4 * j)).take 4))

def extendStep (w : Array Nat) : Array Nat :=
  let v0 := w.getD (w.size - 15) 0
  let v1 := w.getD (w.size - 2) 0
  let s0 := (rotr32 7 v0) ^^^ (rotr32 18 v0) ^^^ (v0 >>> 3)
  let s1 := (rotr32 17 v1) ^^^ (rotr32 19 v1) ^^^ (v1 >>> 10)
  w.push ((w.getD (w.size - 16) 0 + s0 + w.getD (w.size - 7) 0 + s1) % M32)

def extendWords (ws : List Nat) : Array Nat :=
  (List.range 48).foldl (fun w _ => extendStep w) (List.toArray ws)

def compressStep (s : Array Nat) (kw : Nat × Nat) : Array Nat :=
  let a := s.getD 0 0
  let b := s.getD 1 0
  let c := s.getD 2 0
  let d := s.getD 3 0
  let e := s.getD 4 0
  let f := s.getD 5 0
  let g := s.getD 6 0
  let h := s.getD 7 0
  let S1 := (rotr32 6 e) ^^^ (rotr32 11 e) ^^^ (rotr32 25 e)
  let ch := (e &&& f) ^^^ ((e ^^^ (M32 - 1)) &&& g)
  let temp1 := (h + S1 + ch + kw.1 + kw.2) % M32
  let S0 := (rotr32 2 a) ^^^ (rotr32 13 a) ^^^ (rotr32 22 a)
  let maj := (a &&& b) ^^^ (a &&& c) ^^^ (b &&& c)
  let temp2 := (S0 + maj) % M32
  #[(temp1 + temp2) % M32, a, b, c, (d + temp1) % M32, e, f, g]

def processChunk (hs : List Nat) (chunk : List Nat) : List Nat :=
  let w := extendWords (chunkWords chunk)
  let s := (sha256K.zip w.toList).foldl compressStep (List.toArray hs)
  (hs.zip s.toList).map (fun p => (p.1 + p.2) % M32)

def sha256Bytes (msg : List Nat) : List Nat :=
  let padded := sha256Pad msg
  let n := padded.length / 64
  let hs := (List.range n).foldl
    (fun hs i => processChunk hs ((padded.drop (64 * i)).take 64)) sha256H0
  hs.foldr (fun h acc => natToBytesBE 4 h ++ acc) []

def hexDigit (n : Nat) : Char :=
  if n < 10 then Char.ofNat (48 + n) else Char.ofNat (87 + n)

def bytesToHex (bs : List Nat) : String :=
  String.mk (bs.foldr (fun b acc => hexDigit (b / 16) :: hexDigit (b % 16) :: acc) [])

def utf8Bytes (c : Char) : List Nat :=
  let n := c.toNat
  if n < 128 then [n]
  else if n < 2048 then [192 ||| (n >>> 6), 128 ||| (n % 64)]
  else if n < 65536 then [224 ||| (n >>> 12), 128 ||| ((n >>> 6) % 64), 128 ||| (n % 64)]
  else [240 ||| (n >>> 18), 128 ||| ((n >>> 12) % 64), 128 ||| ((n >>> 6) % 64), 128 ||| (n % 64)]

def strBytes (s : String) : List Nat :=
  s.data.foldr (fun c acc => utf8Bytes c ++ acc) []

/-- Hex digest of a string, as the Rust code's
`format!("\x7b:x\x7d", Sha256::digest(s.as_bytes()))` produces it:
64 lowercase hex characters. -/
def sha256hex (s : String) : String :=
  bytesToHex (sha256Bytes (strBytes s))

/-! ## Data model (structs `Transaction`, `Block`, `Blockchain`) -/

structure Transaction where
  sender : String
  receiver : String
  amount : Int
  timestamp : Int
deriving DecidableEq

instance : Inhabited Transaction := ⟨⟨"", "", 0, 0⟩⟩

/-- `Transaction::new` stamps the wall-clock time; the timestamp is an
explicit parameter here. -/
def Transaction.new (sender receiver : String) (amount : Int) (timestamp : Int) : Transaction :=
  ⟨sender, receiver, amount, timestamp⟩

/-- `Transaction::to_string`:
`format!("\x7b\x7d\x7b\x7d\x7b\x7d\x7b\x7d", self.sender, self.receiver, self.amount, self.timestamp)`. -/
def Transaction.to_string (t : Transaction) : String :=
  t.sender ++ t.receiver ++ toString t.amount ++ toString t.timestamp

structure Block where
  index : Nat
  timestamp : Int
  transactions : List Transaction
  previous_hash : String
  hash : String
  nonce : Nat
  difficulty : Nat
deriving DecidableEq

instance : Inhabited Block := ⟨⟨0, 0, [], "", "", 0, 0⟩⟩

/-- `Block::calculate_hash`: SHA-256 of the concatenation of the index,
timestamp, every transaction's `to_string`, the previous hash and the
nonce.  It reads neither `hash` nor `difficulty`. -/
def Block.calculate_hash (b : Block) : String :=
  let transactions_str := String.join (b.transactions.map Transaction.to_string)
  let block_data :=
    toString b.index ++ toString b.timestamp ++ transactions_str ++ b.previous_hash ++
      toString b.nonce
  sha256hex block_data

/-- `Block::new(index, transactions, previous_hash, difficulty)`; the
constructor stamps the time, sets `nonce = 0`, and computes the initial
hash from the current state. -/
def Block.new (index : Nat) (transactions : List Transaction) (previous_hash : String)
    (difficulty : Nat) (timestamp : Int) : Block :=
  let b : Block := ⟨index, timestamp, transactions, previous_hash, "", 0, difficulty⟩
  { b with hash := b.calculate_hash }

/-- Rust's `str::starts_with` on two strings, char by char. -/
def listStartsWith : List Char → List Char → Bool
  | _, [] => true
  | [], _ :: _ => false
  | c :: cs, p :: ps => c == p && listStartsWith cs ps

def strStartsWith (s p : String) : Bool :=
  listStartsWith s.data p.data

/-- The mining target `"0".repeat(difficulty)`. -/
def target (difficulty : Nat) : String :=
  String.mk (List.replicate difficulty '0')

/-- One iteration of the mining loop body: `self.nonce += 1;
self.hash = self.calculate_hash();` (the `u64` nonce wraps at `2^64`). -/
def Block.mineStep (b : Block) : Block :=
  let b' := { b with nonce := (b.nonce + 1) % (2 ^ 64) }
  { b' with hash := b'.calculate_hash }

/-- `Block::mine_block`: `while !self.hash.starts_with(&target) \x7b nonce += 1;
hash = calculate_hash() \x7d`, with explicit fuel bounding the number of
iterations; `none` models non-termination within the fuel.  The loop
condition is tested before the first increment, so a block whose stored
hash already meets the target is returned untouched. -/
def Block.mine_block : Nat → Block → Option Block
  | 0, b => if strStartsWith b.hash (target b.difficulty) then some b else none
  | f + 1, b =>
    if strStartsWith b.hash (target b.difficulty) then some b
    else Block.mine_block f b.mineStep

structure Blockchain where
  chain : List Block
  difficulty : Nat
  pending_transactions : List Transaction
  mining_reward : Int
deriving DecidableEq

/-- `Blockchain::create_genesis_block`: push a mined block
`Block::new(0, vec![System→Genesis:0], "0", difficulty)` onto the chain. -/
def Blockchain.create_genesis_block (bc : Blockchain) (txTime blockTime : Int)
    (fuel : Nat) : Option Blockchain :=
  let genesis_tx := Transaction.new ("System") ("Genesis") 0 txTime
  let genesis_block := Block.new 0 [genesis_tx] ("0") bc.difficulty blockTime
  (Block.mine_block fuel genesis_block).map (fun g => { bc with chain := bc.chain ++ [g] })

/-- `Blockchain::new(difficulty, mining_reward)`: empty pending pool,
then `create_genesis_block`. -/
def Blockchain.new (difficulty : Nat) (mining_reward : Int) (txTime blockTime : Int)
    (fuel : Nat) : Option Blockchain :=
  Blockchain.create_genesis_block ⟨[], difficulty, [], mining_reward⟩ txTime blockTime fuel

/-- `Blockchain::get_latest_block` — `self.chain.last().unwrap()`; the
`Option` models the panic on an empty chain. -/
def Blockchain.get_latest_block (bc : Blockchain) : Option Block :=
  bc.chain.getLast?

/-- `Blockchain::add_transaction`: push onto the pending pool. -/
def Blockchain.add_transaction (bc : Blockchain) (t : Transaction) : Blockchain :=
  { bc with pending_transactions := bc.pending_transactions ++ [t] }

/-- `Blockchain::mine_pending_transactions(miner_address)`: push the
reward transaction `System→miner_address : mining_reward` onto the
pending pool, build `Block::new(chain.len(), pending.clone(),
latest.hash, difficulty)`, mine it, append it, clear the pool. -/
def Blockchain.mine_pending_transactions (bc : Blockchain) (miner_address : String)
    (txTime blockTime : Int) (fuel : Nat) : Option Blockchain :=
  let reward_tx := Transaction.new ("System") miner_address bc.mining_reward txTime
  let pending := bc.pending_transactions ++ [reward_tx]
  match bc.chain.getLast? with
  | none => none
  | some latest =>
    let new_block := Block.new bc.chain.length pending latest.hash bc.difficulty blockTime
    (Block.mine_block fuel new_block).map
      (fun b => { bc with chain := bc.chain ++ [b], pending_transactions := [] })

/-- The three per-block checks of `Blockchain::is_chain_valid`, in source
order: recomputed hash, linkage to the previous block, proof of work. -/
def blockValid (previous_block current_block : Block) : Bool :=
  current_block.hash == current_block.calculate_hash &&
    (current_block.previous_hash == previous_block.hash &&
      strStartsWith current_block.hash (target current_block.difficulty))

def isChainValidAux : Block → List Block → Bool
  | _, [] => true
  | prev, cur :: rest => blockValid prev cur && isChainValidAux cur rest

/-- `Blockchain::is_chain_valid`: `for i in 1..chain.len()`, short-circuit
`false` on the first index failing any of the three checks. -/
def Blockchain.is_chain_valid (bc : Blockchain) : Bool :=
  match bc.chain with
  | [] => true
  | g :: rest => isChainValidAux g rest

def firstInvalidAux : Block → List Block → Nat → Option Nat
  | _, [], _ => none
  | prev, cur :: rest, i =>
    if blockValid prev cur then firstInvalidAux cur rest (i + 1) else some i

/-- The index printed by `is_chain_valid` on failure: the first `i ≥ 1`
whose block fails one of the three checks (`none` when the chain is
reported valid). -/
def Blockchain.first_invalid_index (bc : Blockchain) : Option Nat :=
  match bc.chain with
  | [] => none
  | g :: rest => firstInvalidAux g rest 1

/-- `Blockchain::get_balance(address)`: fold over every transaction of
every block, subtracting on `sender == address` and adding on
`receiver == address`. -/
def Blockchain.get_balance (bc : Blockchain) (address : String) : Int :=
  bc.chain.foldl
    (fun balance block =>
      block.transactions.foldl
        (fun balance tx =>
          let balance := if tx.sender == address then balance - tx.amount else balance
          if tx.receiver == address then balance + tx.amount else balance)
        balance)
    0

/-! ## Derived notions used in the statements -/

/-- Every transaction of every block, in chain order. -/
def Blockchain.all_transactions (bc : Blockchain) : List Transaction :=
  bc.chain.foldr (fun b acc => b.transactions ++ acc) []

/-- The signed contribution of one transaction to one address's balance. -/
def txContribution (address : String) (t : Transaction) : Int :=
  (if t.sender == address then -t.amount else 0) +
    (if t.receiver == address then t.amount else 0)

/-- Number of leading '0' characters of a string. -/
def leadingZeroChars : List Char → Nat
  | [] => 0
  | c :: cs => if c = '0' then leadingZeroChars cs + 1 else 0

/-- The checks of `is_chain_valid` applied at position `i` of the chain
(meaningful for `1 ≤ i < chain.length`). -/
def Blockchain.blockOkAt (bc : Blockchain) (i : Nat) : Bool :=
  blockValid (bc.chain.getD (i - 1) default) (bc.chain.getD i default)

def listModify (f : α → α) : Nat → List α → List α
  | _, [] => []
  | 0, x :: xs => f x :: xs
  | n + 1, x :: xs => x :: listModify f n xs

/-- The tampering of the demo: `chain[i].transactions[j].amount = a`. -/
def Blockchain.tamperAmount (bc : Blockchain) (i j : Nat) (a : Int) : Blockchain :=
  { bc with
    chain := listModify
      (fun b => { b with
        transactions := listModify (fun t => { t with amount := a }) j b.transactions })
      i bc.chain }

/-- The `main` demo scenario: difficulty 4, reward 100; submit
Alice→Bob:50 and Bob→Charlie:25, mine for Miner1, submit Charlie→Alice:10
and Alice→Miner1:5, mine for Miner1 again.  Timestamps (`t*` for
transactions, `b*` for blocks) and fuels are explicit inputs. -/
def demoScenario (tg t1 t2 tr1 t3 t4 tr2 bg b1 b2 : Int) (f0 f1 f2 : Nat) :
    Option Blockchain :=
  (Blockchain.new 4 100 tg bg f0).bind (fun bc =>
    (((bc.add_transaction (Transaction.new ("Alice") ("Bob") 50 t1)).add_transaction
        (Transaction.new ("Bob") ("Charlie") 25 t2)).mine_pending_transactions
        ("Miner1") tr1 b1 f1).bind (fun bc =>
      (((bc.add_transaction (Transaction.new ("Charlie") ("Alice") 10 t3)).add_transaction
          (Transaction.new ("Alice") ("Miner1") 5 t4)).mine_pending_transactions
          ("Miner1") tr2 b2 f2)))

/-! ## Concrete example data

Hash strings below are SHA-256 digests of the corresponding block data;
all are checkable by `decide` through `sha256hex`.  The demo blocks use
block timestamps for which the block data already meets the difficulty-4
target at nonce 0, so the mining loop exits on its first test. -/

/-- A correctly hashed genesis block at difficulty 0 (all timestamps 0). -/
def exGenesis : Block :=
  ⟨0, 0, [⟨"System", "Genesis", 0, 0⟩], "0",
    "23274b0cd1713faee2fda3a645f4c2585aad326a2b4b8981ae1e8efaaf66e614", 0, 0⟩

/-- A correctly hashed and linked successor of `exGenesis`. -/
def exBlock1 : Block :=
  ⟨1, 2, [⟨"Alice", "Bob", 3, 1⟩],
    "23274b0cd1713faee2fda3a645f4c2585aad326a2b4b8981ae1e8efaaf66e614",
    "b24d0d5c849c643cf889927b2c43bf53d2579f486a5e1d4f4329fe9dd8097721", 0, 0⟩

/-- A two-block valid chain at difficulty 0. -/
def exChain : Blockchain := ⟨[exGenesis, exBlock1], 0, [], 5⟩

/-- A ledger poised for `mine_pending_transactions`: one (arbitrarily
hashed) genesis block and one pending transaction, difficulty 0. -/
def exPre : Blockchain := ⟨[⟨0, 0, [], "0", "aa", 0, 0⟩], 0, [⟨"Alice", "Bob", 7, 3⟩], 5⟩

/-- The result of `exPre.mine_pending_transactions "Miner9" 4 9 0`. -/
def exPost : Blockchain :=
  ⟨[⟨0, 0, [], "0", "aa", 0, 0⟩,
    ⟨1, 9, [⟨"Alice", "Bob", 7, 3⟩, ⟨"System", "Miner9", 5, 4⟩], "aa",
      "5ee22c2c118b9626ef6c89dd325db6583b1ab6d282957ca6098b3ed38d173d64", 0, 0⟩],
   0, [], 5⟩

/-- A difficulty-1 block whose stored hash misses the target; one mining
step (nonce 1) produces a hash with a leading zero. -/
def exMineIn : Block := ⟨0, 1, [], "0", "x", 0, 1⟩

/-- `Block.mine_block 1 exMineIn` lands here. -/
def exMineOut : Block :=
  ⟨0, 1, [], "0", "07334386287751ba02a4588c1a0875dbd074a61bd9e6ab7c48d244eacd0c99e0", 1, 1⟩

/-- Genesis block of the demo run (difficulty 4): at block timestamp
88476 (transaction timestamp 0) the initial hash meets the target. -/
def demoGenesis : Block :=
  ⟨0, 88476, [⟨"System", "Genesis", 0, 0⟩], "0",
    "0000452ddadacbbb75b67d3ef18a68a1265f84137f84711779a6def246c7bcc5", 0, 4⟩

/-- First mined block of the demo run (block timestamp 25025). -/
def demoBlock1 : Block :=
  ⟨1, 25025,
    [⟨"Alice", "Bob", 50, 0⟩, ⟨"Bob", "Charlie", 25, 0⟩, ⟨"System", "Miner1", 100, 0⟩],
    "0000452ddadacbbb75b67d3ef18a68a1265f84137f84711779a6def246c7bcc5",
    "0000b38b2a75f43b2fb5d228854f5a621f9182cdd26050dcead2d2f089cbfbc8", 0, 4⟩

/-- Second mined block of the demo run (block timestamp 167738). -/
def demoBlock2 : Block :=
  ⟨2, 167738,
    [⟨"Charlie", "Alice", 10, 0⟩, ⟨"Alice", "Miner1", 5, 0⟩, ⟨"System", "Miner1", 100, 0⟩],
    "0000b38b2a75f43b2fb5d228854f5a621f9182cdd26050dcead2d2f089cbfbc8",
    "00009ccf84d8c9a5c121b9f87eda73ea3bf23d1c1aaba9f6fefcbda14ab4af6d", 0, 4⟩

/-- The ledger produced by the demo run at the above timestamps. -/
def demoResult : Blockchain := ⟨[demoGenesis, demoBlock1, demoBlock2], 4, [], 100⟩

/-- The result of `Blockchain.new 0 5 0 0 0`. -/
def exNewChain : Blockchain := ⟨[exGenesis], 0, [], 5⟩

/-- A single-block ledger whose genesis block's stored hash (the empty
string) is not its recomputed hash. -/
def badGenesisChain : Blockchain := ⟨[⟨0, 0, [], "0", "", 0, 0⟩], 0, [], 0⟩

/-! ## Basic lemmas -/

theorem calculate_hash_set_hash (b : Block) (x : String) :
    Block.calculate_hash { b with hash := x } = b.calculate_hash := rfl

theorem listStartsWith_replicate_zero (d : Nat) : ∀ cs : List Char,
    listStartsWith cs (List.replicate d '0') = true ↔ d ≤ leadingZeroChars cs := by
  induction d with
  | zero => intro cs; simp [listStartsWith]
  | succ d ih =>
    intro cs
    cases cs with
    | nil => simp [List.replicate, listStartsWith, leadingZeroChars]
    | cons c cs' =>
      simp only [List.replicate, listStartsWith, leadingZeroChars, Bool.and_eq_true,
        beq_iff_eq]
      by_cases hc : c = '0'
      · subst hc
        simp [ih cs']
      · simp [hc]

theorem mineStep_index (b : Block) : b.mineStep.index = b.index := rfl

theorem mineStep_timestamp (b : Block) : b.mineStep.timestamp = b.timestamp := rfl

theorem mineStep_transactions (b : Block) : b.mineStep.transactions = b.transactions := rfl

theorem mineStep_previous (b : Block) : b.mineStep.previous_hash = b.previous_hash := rfl

theorem mineStep_difficulty (b : Block) : b.mineStep.difficulty = b.difficulty := rfl

theorem mineStep_hash_ok (b : Block) : b.mineStep.hash = b.mineStep.calculate_hash := rfl

/-- What a successful mining run guarantees: every field other than
`nonce` and `hash` is untouched, the final hash meets the block's own
target, and the hash-recompute invariant is preserved. -/
theorem mine_block_spec : ∀ (fuel : Nat) (b b' : Block),
    Block.mine_block fuel b = some b' →
    b'.index = b.index ∧ b'.timestamp = b.timestamp ∧
    b'.transactions = b.transactions ∧ b'.previous_hash = b.previous_hash ∧
    b'.difficulty = b.difficulty ∧
    strStartsWith b'.hash (target b'.difficulty) = true ∧
    (b.hash = b.calculate_hash → b'.hash = b'.calculate_hash) := by
  intro fuel
  induction fuel with
  | zero =>
    intro b b' h
    rw [Block.mine_block] at h
    split at h
    · next hc =>
      injection h with h
      subst h
      exact ⟨rfl, rfl, rfl, rfl, rfl, hc, fun hh => hh⟩
    · exact absurd h (by simp)
  | succ f ih =>
    intro b b' h
    rw [Block.mine_block] at h
    split at h
    · next hc =>
      injection h with h
      subst h
      exact ⟨rfl, rfl, rfl, rfl, rfl, hc, fun hh => hh⟩
    · obtain ⟨h1, h2, h3, h4, h5, h6, h7⟩ := ih _ _ h
      rw [mineStep_index] at h1
      rw [mineStep_timestamp] at h2
      rw [mineStep_transactions] at h3
      rw [mineStep_previous] at h4
      rw [mineStep_difficulty] at h5
      exact ⟨h1, h2, h3, h4, h5, h6, fun _ => h7 (mineStep_hash_ok b)⟩

/-! ## Claims about mining -/

/-- C4: whenever `mine_block` returns, the resulting block's hash has at
least `difficulty` leading hexadecimal zero characters (the loop only
exits once `hash.starts_with("0" * difficulty)` holds, and `mineStep`
preserves `difficulty`). -/
theorem C4_pow_satisfaction (fuel : Nat) (b b' : Block)
    (h : Block.mine_block fuel b = some b') :
    b'.difficulty ≤ leadingZeroChars b'.hash.data :=
  (listStartsWith_replicate_zero b'.difficulty b'.hash.data).mp
    ((mine_block_spec fuel b b' h).2.2.2.2.2.1)

theorem C4_pow_satisfaction_witness :
    exMineOut.difficulty ≤ leadingZeroChars exMineOut.hash.data :=
  C4_pow_satisfaction 1 exMineIn exMineOut (by decide)

/-- C10: a block whose stored hash already has at least `difficulty`
leading zero characters is returned unchanged by `mine_block` (in
particular at difficulty 0): the loop tests the target before the first
nonce increment. -/
theorem C10_mine_noop (fuel : Nat) (b : Block)
    (h : b.difficulty ≤ leadingZeroChars b.hash.data) :
    Block.mine_block fuel b = some b := by
  have hsw : strStartsWith b.hash (target b.difficulty) = true :=
    (listStartsWith_replicate_zero b.difficulty b.hash.data).mpr h
  cases fuel <;> simp [Block.mine_block, hsw]

theorem C10_mine_noop_witness : Block.mine_block 5 exMineOut = some exMineOut :=
  C10_mine_noop 5 exMineOut (by decide)

/-- C8: `calculate_hash` is a function of exactly
`(index, timestamp, transactions, previous_hash, nonce)`: two blocks
agreeing on those five fields (but possibly differing in `hash` or
`difficulty`) get the same digest. -/
theorem C8_calculate_hash_deterministic (b₁ b₂ : Block)
    (h1 : b₁.index = b₂.index) (h2 : b₁.timestamp = b₂.timestamp)
    (h3 : b₁.transactions = b₂.transactions) (h4 : b₁.previous_hash = b₂.previous_hash)
    (h5 : b₁.nonce = b₂.nonce) :
    b₁.calculate_hash = b₂.calculate_hash := by
  simp [Block.calculate_hash, h1, h2, h3, h4, h5]

theorem C8_calculate_hash_deterministic_witness :
    Block.calculate_hash ⟨3, 7, [⟨"A", "B", 1, 2⟩], "pp", "zzz", 6, 9⟩ =
      Block.calculate_hash ⟨3, 7, [⟨"A", "B", 1, 2⟩], "pp",
        "848d4406c961b6d02747ede47a659778e83cdb9578558f4e3b7da539e0b02106", 6, 0⟩ :=
  C8_calculate_hash_deterministic _ _ rfl rfl rfl rfl rfl

/-- C9: `is_chain_valid` starts its loop at index 1, so a ledger whose
chain is a single block — whatever that block's fields hold, its genesis
hash or difficulty included — is reported valid. -/
theorem C9_single_block_always_valid (b : Block) (d : Nat) (p : List Transaction) (r : Int) :
    Blockchain.is_chain_valid ⟨[b], d, p, r⟩ = true := rfl

/-! ## Chain validation characterized by index -/

theorem isChainValidAux_true_iff : ∀ (l : List Block) (prev : Block),
    isChainValidAux prev l = true ↔
      ∀ d, d < l.length →
        blockValid ((prev :: l).getD d default) (l.getD d default) = true := by
  intro l
  induction l with
  | nil => intro prev; simp [isChainValidAux]
  | cons c rest ih =>
    intro prev
    simp only [isChainValidAux, Bool.and_eq_true, ih c, List.length_cons]
    constructor
    · rintro ⟨hv, hrest⟩ d hd
      cases d with
      | zero => simpa using hv
      | succ d' =>
        have := hrest d' (by omega)
        simpa using this
    · intro hall
      refine ⟨by simpa using hall 0 (by omega), fun d hd => ?_⟩
      have := hall (d + 1) (by omega)
      simpa using this

theorem firstInvalidAux_some_iff : ∀ (l : List Block) (prev : Block) (i0 k : Nat),
    firstInvalidAux prev l i0 = some k ↔
      (i0 ≤ k ∧ k - i0 < l.length ∧
       blockValid ((prev :: l).getD (k - i0) default) (l.getD (k - i0) default) = false ∧
       ∀ d, d < k - i0 →
         blockValid ((prev :: l).getD d default) (l.getD d default) = true) := by
  intro l
  induction l with
  | nil => intro prev i0 k; simp [firstInvalidAux]
  | cons c rest ih =>
    intro prev i0 k
    simp only [firstInvalidAux]
    by_cases hv : blockValid prev c = true
    · rw [if_pos hv, ih c (i0 + 1) k]
      constructor
      · rintro ⟨h1, h2, h3, h4⟩
        have hki : k - i0 = (k - (i0 + 1)) + 1 := by omega
        refine ⟨by omega, by simp only [List.length_cons]; omega, ?_, ?_⟩
        · rw [hki]; simpa using h3
        · intro d hd
          cases d with
          | zero => simpa using hv
          | succ d' =>
            have := h4 d' (by omega)
            simpa using this
      · rintro ⟨h1, h2, h3, h4⟩
        have hk0 : k - i0 ≠ 0 := by
          intro h0
          rw [h0] at h3
          simp only [List.getD_cons_zero] at h3
          rw [hv] at h3
          exact Bool.noConfusion h3
        have hki : k - i0 = (k - (i0 + 1)) + 1 := by omega
        refine ⟨by omega, by simp only [List.length_cons] at h2; omega, ?_, ?_⟩
        · rw [hki] at h3; simpa using h3
        · intro d hd
          have := h4 (d + 1) (by omega)
          simpa using this
    · have hvf : blockValid prev c = false := by simpa using hv
      rw [if_neg hv]
      simp only [Option.some.injEq]
      constructor
      · rintro rfl
        exact ⟨Nat.le_refl _, by simp, by simpa using hvf, by omega⟩
      · rintro ⟨h1, h2, h3, h4⟩
        by_contra hne
        have hk : 0 < k - i0 := by omega
        have := h4 0 hk
        simp only [List.getD_cons_zero] at this
        rw [hvf] at this
        exact Bool.noConfusion this

theorem firstInvalidAux_none_iff : ∀ (l : List Block) (prev : Block) (i0 : Nat),
    firstInvalidAux prev l i0 = none ↔ isChainValidAux prev l = true := by
  intro l
  induction l with
  | nil => intro prev i0; simp [firstInvalidAux, isChainValidAux]
  | cons c rest ih =>
    intro prev i0
    simp only [firstInvalidAux, isChainValidAux, Bool.and_eq_true]
    by_cases hv : blockValid prev c = true
    · simp [hv, ih]
    · simp [hv]

/-- The three checks of `blockValid`, spelled out: the stored hash is the
recomputed hash, the linkage holds, and the stored hash has at least
`difficulty` leading zero characters. -/
theorem blockValid_iff (prev cur : Block) :
    blockValid prev cur = true ↔
      (cur.hash = cur.calculate_hash ∧ cur.previous_hash = prev.hash ∧
        cur.difficulty ≤ leadingZeroChars cur.hash.data) := by
  simp only [blockValid, Bool.and_eq_true, beq_iff_eq]
  exact and_congr_right fun _ =>
    and_congr_right fun _ => listStartsWith_replicate_zero _ _

/-- C1: `is_chain_valid` returns `true` exactly when every index
`1 ≤ i < chain.length` passes the three checks — (a) stored hash equals
recomputed hash, (b) `previous_hash` equals the hash of block `i-1`,
(c) the stored hash has at least `difficulty` leading hexadecimal zero
characters (bundled in `blockValid` in source order); the failure index
it reports is the least failing one, and the boolean is `true` iff no
failure index is reported (short-circuiting). -/
theorem C1_is_chain_valid_spec (bc : Blockchain) :
    (∀ prev cur : Block, blockValid prev cur = true ↔
      (cur.hash = cur.calculate_hash ∧ cur.previous_hash = prev.hash ∧
        cur.difficulty ≤ leadingZeroChars cur.hash.data)) ∧
    (bc.is_chain_valid = true ↔
      ∀ i, 1 ≤ i → i < bc.chain.length → bc.blockOkAt i = true) ∧
    (∀ k, bc.first_invalid_index = some k ↔
      (1 ≤ k ∧ k < bc.chain.length ∧ bc.blockOkAt k = false ∧
       ∀ j, 1 ≤ j → j < k → bc.blockOkAt j = true)) ∧
    bc.is_chain_valid = bc.first_invalid_index.isNone := by
  refine ⟨fun prev cur => blockValid_iff prev cur, ?_⟩
  obtain ⟨chain, d, p, r⟩ := bc
  cases chain with
  | nil =>
    refine ⟨by simp [Blockchain.is_chain_valid], ?_, rfl⟩
    intro k
    simp [Blockchain.first_invalid_index]
  | cons g rest =>
    have hvalid : Blockchain.is_chain_valid ⟨g :: rest, d, p, r⟩ = isChainValidAux g rest := rfl
    have hfirst : Blockchain.first_invalid_index ⟨g :: rest, d, p, r⟩ =
        firstInvalidAux g rest 1 := rfl
    refine ⟨?_, ?_, ?_⟩
    · rw [hvalid, isChainValidAux_true_iff]
      constructor
      · intro h i h1 h2
        obtain ⟨d', rfl⟩ : ∃ d', i = d' + 1 := ⟨i - 1, by omega⟩
        have := h d' (by simp only [List.length_cons] at h2; omega)
        simpa [Blockchain.blockOkAt] using this
      · intro h d' hd'
        have := h (d' + 1) (by omega) (by simp only [List.length_cons]; omega)
        simpa [Blockchain.blockOkAt] using this
    · intro k
      rw [hfirst, firstInvalidAux_some_iff]
      constructor
      · rintro ⟨h1, h2, h3, h4⟩
        obtain ⟨k', rfl⟩ : ∃ k', k = k' + 1 := ⟨k - 1, by omega⟩
        refine ⟨by omega, by simp only [List.length_cons]; omega, ?_, ?_⟩
        · simpa [Blockchain.blockOkAt] using h3
        · intro j hj1 hj2
          obtain ⟨j', rfl⟩ : ∃ j', j = j' + 1 := ⟨j - 1, by omega⟩
          have := h4 j' (by omega)
          simpa [Blockchain.blockOkAt] using this
      · rintro ⟨h1, h2, h3, h4⟩
        obtain ⟨k', rfl⟩ : ∃ k', k = k' + 1 := ⟨k - 1, by omega⟩
        refine ⟨by omega, by simp only [List.length_cons] at h2; omega, ?_, ?_⟩
        · simpa [Blockchain.blockOkAt] using h3
        · intro d' hd'
          have := h4 (d' + 1) (by omega) (by omega)
          simpa [Blockchain.blockOkAt] using this
    · rw [hvalid, hfirst]
      cases hfi : firstInvalidAux g rest 1 with
      | none => simp [(firstInvalidAux_none_iff rest g 1).mp hfi]
      | some k =>
        cases ha : isChainValidAux g rest with
        | false => rfl
        | true =>
          rw [(firstInvalidAux_none_iff rest g 1).mpr ha] at hfi
          exact absurd hfi (by simp)

theorem C1_is_chain_valid_spec_witness : Blockchain.blockOkAt exChain 1 = true :=
  ((C1_is_chain_valid_spec exChain).2.1.mp (by decide)) 1 (by decide) (by decide)

/-! ## Construction and mining of ledgers -/

theorem new_block_hash_ok (i : Nat) (txs : List Transaction) (p : String) (d : Nat)
    (ts : Int) : (Block.new i txs p d ts).hash = (Block.new i txs p d ts).calculate_hash := rfl

/-- Everything `mine_pending_transactions` guarantees on success. -/
theorem mine_pending_spec (bc : Blockchain) (miner : String) (tT bT : Int) (fuel : Nat)
    (bc' : Blockchain)
    (h : bc.mine_pending_transactions miner tT bT fuel = some bc') :
    ∃ latest nb,
      bc.chain.getLast? = some latest ∧
      bc'.chain = bc.chain ++ [nb] ∧
      bc'.pending_transactions = [] ∧
      bc'.difficulty = bc.difficulty ∧
      bc'.mining_reward = bc.mining_reward ∧
      nb.index = bc.chain.length ∧
      nb.timestamp = bT ∧
      nb.previous_hash = latest.hash ∧
      nb.transactions =
        bc.pending_transactions ++ [Transaction.new ("System") miner bc.mining_reward tT] ∧
      nb.difficulty = bc.difficulty ∧
      nb.hash = nb.calculate_hash ∧
      strStartsWith nb.hash (target nb.difficulty) = true := by
  simp only [Blockchain.mine_pending_transactions] at h
  cases hl : bc.chain.getLast? with
  | none => rw [hl] at h; exact absurd h (by simp)
  | some latest =>
    rw [hl] at h
    simp only [Option.map_eq_some'] at h
    obtain ⟨nb, hmine, rfl⟩ := h
    obtain ⟨h1, h2, h3, h4, h5, h6, h7⟩ := mine_block_spec _ _ _ hmine
    exact ⟨latest, nb, rfl, rfl, rfl, rfl, rfl, h1.trans rfl, h2.trans rfl,
      h4.trans rfl, h3.trans rfl, h5.trans rfl, h7 rfl, h6⟩

/-- Everything `Blockchain.new` guarantees on success. -/
theorem blockchain_new_spec (d : Nat) (r tT bT : Int) (fuel : Nat) (bc : Blockchain)
    (h : Blockchain.new d r tT bT fuel = some bc) :
    ∃ g, bc.chain = [g] ∧ bc.pending_transactions = [] ∧ bc.difficulty = d ∧
      bc.mining_reward = r ∧ g.index = 0 ∧ g.timestamp = bT ∧ g.previous_hash = "0" ∧
      g.transactions = [Transaction.new ("System") ("Genesis") 0 tT] ∧
      g.difficulty = d ∧ g.hash = g.calculate_hash ∧
      strStartsWith g.hash (target g.difficulty) = true := by
  simp only [Blockchain.new, Blockchain.create_genesis_block, Option.map_eq_some'] at h
  obtain ⟨g, hmine, rfl⟩ := h
  obtain ⟨h1, h2, h3, h4, h5, h6, h7⟩ := mine_block_spec _ _ _ hmine
  exact ⟨g, by simp, rfl, rfl, rfl, h1.trans rfl, h2.trans rfl, h4.trans rfl,
    h3.trans rfl, h5.trans rfl, h7 rfl, h6⟩

/-- C3: on a ledger with a non-empty chain, a successful
`mine_pending_transactions(miner_address)` appends exactly one block:
its index is the old chain length, its `previous_hash` the last block's
hash, its transactions the old pending pool followed by the single
reward transfer `System → miner_address : mining_reward`, its difficulty
the ledger's; the block is mined (hash recomputable and meeting the
target) and the pending pool is empty afterwards. -/
theorem C3_mine_pending_appends (bc : Blockchain) (miner : String) (tT bT : Int)
    (fuel : Nat) (bc' : Blockchain) (_hne : bc.chain ≠ [])
    (h : bc.mine_pending_transactions miner tT bT fuel = some bc') :
    ∃ nb,
      bc'.chain = bc.chain ++ [nb] ∧
      bc'.pending_transactions = [] ∧
      bc'.difficulty = bc.difficulty ∧
      bc'.mining_reward = bc.mining_reward ∧
      nb.index = bc.chain.length ∧
      nb.previous_hash = (bc.chain.getLastD default).hash ∧
      nb.transactions =
        bc.pending_transactions ++ [Transaction.new ("System") miner bc.mining_reward tT] ∧
      nb.difficulty = bc.difficulty ∧
      nb.hash = nb.calculate_hash ∧
      strStartsWith nb.hash (target nb.difficulty) = true := by
  obtain ⟨latest, nb, hlast, hc, hp, hd, hr, hi, _, hprev, htx, hbd, hok, hpow⟩ :=
    mine_pending_spec bc miner tT bT fuel bc' h
  refine ⟨nb, hc, hp, hd, hr, hi, ?_, htx, hbd, hok, hpow⟩
  rw [List.getLastD_eq_getLast?, hlast, Option.getD_some, hprev]

theorem C3_mine_pending_appends_witness :
    ∃ nb,
      exPost.chain = exPre.chain ++ [nb] ∧
      exPost.pending_transactions = [] ∧
      exPost.difficulty = exPre.difficulty ∧
      exPost.mining_reward = exPre.mining_reward ∧
      nb.index = exPre.chain.length ∧
      nb.previous_hash = (exPre.chain.getLastD default).hash ∧
      nb.transactions =
        exPre.pending_transactions ++
          [Transaction.new ("System") ("Miner9") exPre.mining_reward 4] ∧
      nb.difficulty = exPre.difficulty ∧
      nb.hash = nb.calculate_hash ∧
      strStartsWith nb.hash (target nb.difficulty) = true :=
  C3_mine_pending_appends exPre ("Miner9") 4 9 0 exPost (by decide) (by decide)

/-- C7: a freshly constructed ledger (whenever its synchronous genesis
mining returns) has exactly one block, with index 0, previous hash `"0"`
and a single zero-value `System → Genesis` transfer — for every
difficulty and mining reward. -/
theorem C7_genesis_invariant (d : Nat) (r tT bT : Int) (fuel : Nat) (bc : Blockchain)
    (h : Blockchain.new d r tT bT fuel = some bc) :
    bc.chain.length = 1 ∧ (bc.chain.getD 0 default).index = 0 ∧
    (bc.chain.getD 0 default).previous_hash = "0" ∧
    (bc.chain.getD 0 default).transactions =
      [Transaction.new ("System") ("Genesis") 0 tT] := by
  obtain ⟨g, hchain, _, _, _, hidx, _, hprev, htxs, _, _, _⟩ :=
    blockchain_new_spec d r tT bT fuel bc h
  rw [hchain]
  exact ⟨rfl, hidx, hprev, htxs⟩

theorem C7_genesis_invariant_witness :
    exNewChain.chain.length = 1 ∧ (exNewChain.chain.getD 0 default).index = 0 ∧
    (exNewChain.chain.getD 0 default).previous_hash = "0" ∧
    (exNewChain.chain.getD 0 default).transactions =
      [Transaction.new ("System") ("Genesis") 0 0] :=
  C7_genesis_invariant 0 5 0 0 0 exNewChain (by decide)

/-- C2 counterexample: `is_chain_valid` never inspects index 0, so a
one-block ledger whose genesis stored hash (here the empty string) is
not its recomputed hash is still reported valid — the claimed invariant
"every block *including the genesis block*" does not hold on the code. -/
theorem C2_genesis_unchecked_counterexample :
    badGenesisChain.is_chain_valid = true ∧
    ¬ ((badGenesisChain.chain.getD 0 default).hash =
        (badGenesisChain.chain.getD 0 default).calculate_hash) :=
  ⟨rfl, by decide⟩

/-- C2 (amended): on a ledger that `is_chain_valid` accepts, every block
at index at least 1 has its stored hash equal to its recomputed digest
of `(index, timestamp, transaction strings, previous_hash, nonce)`; the
genesis block at index 0 is exempt, being never checked. -/
theorem C2_hash_invariant_amended (bc : Blockchain) (h : bc.is_chain_valid = true) :
    ∀ i, 1 ≤ i → i < bc.chain.length →
      (bc.chain.getD i default).hash = (bc.chain.getD i default).calculate_hash := by
  intro i h1 h2
  obtain ⟨chain, d, p, r⟩ := bc
  cases chain with
  | nil => simp at h2
  | cons g rest =>
    have haux : isChainValidAux g rest = true := h
    obtain ⟨d', rfl⟩ : ∃ d', i = d' + 1 := ⟨i - 1, by omega⟩
    have := (isChainValidAux_true_iff rest g).mp haux d'
      (by simp only [List.length_cons] at h2; omega)
    simp only [blockValid, Bool.and_eq_true, beq_iff_eq] at this
    simpa using this.1

theorem C2_hash_invariant_amended_witness :
    (exChain.chain.getD 1 default).hash = (exChain.chain.getD 1 default).calculate_hash :=
  C2_hash_invariant_amended exChain (by decide) 1 (by decide) (by decide)

/-! ## Balances -/

theorem get_balance_inner (addr : String) : ∀ (txs : List Transaction) (bal : Int),
    txs.foldl
      (fun balance tx =>
        let balance := if tx.sender == addr then balance - tx.amount else balance
        if tx.receiver == addr then balance + tx.amount else balance)
      bal = bal + (txs.map (txContribution addr)).sum := by
  intro txs
  induction txs with
  | nil => intro bal; simp
  | cons t rest ih =>
    intro bal
    simp only [List.foldl_cons, List.map_cons, List.sum_cons, ih]
    by_cases hs : (t.sender == addr) = true <;> by_cases hr : (t.receiver == addr) = true <;>
      simp [txContribution, hs, hr] <;> ring_nf

theorem get_balance_outer (addr : String) : ∀ (l : List Block) (bal : Int),
    l.foldl
      (fun balance block =>
        block.transactions.foldl
          (fun balance tx =>
            let balance := if tx.sender == addr then balance - tx.amount else balance
            if tx.receiver == addr then balance + tx.amount else balance)
          balance)
      bal =
      bal + ((l.foldr (fun b acc => b.transactions ++ acc) []).map (txContribution addr)).sum := by
  intro l
  induction l with
  | nil => intro bal; simp
  | cons b rest ih =>
    intro bal
    rw [List.foldl_cons, ih, get_balance_inner]
    simp only [List.foldr_cons, List.map_append, List.sum_append]
    omega

theorem get_balance_eq_sum (bc : Blockchain) (addr : String) :
    bc.get_balance addr = (bc.all_transactions.map (txContribution addr)).sum := by
  have h := get_balance_outer addr bc.chain 0
  simpa [Blockchain.get_balance, Blockchain.all_transactions] using h

theorem sum_zero_of_all_zero : ∀ l : List Int, (∀ x ∈ l, x = 0) → l.sum = 0 := by
  intro l
  induction l with
  | nil => intro _; rfl
  | cons a t ih =>
    intro h
    simp only [List.sum_cons, h a (by simp), ih fun x hx => h x (by simp [hx]), Int.add_zero]

theorem txContribution_mk (addr s r : String) (a t : Int) :
    txContribution addr ⟨s, r, a, t⟩ =
      (if s = addr then -a else 0) + (if r = addr then a else 0) := by
  simp [txContribution]

/-- C6: `get_balance(address)` equals the signed sum, over every
transaction of every block in chain order, of `-amount` when the sender
matches plus `+amount` when the receiver matches; it is 0 for an address
appearing in no transaction; and on any ledger holding exactly the demo
transactions (whatever the timestamps) the balances are Alice −45,
Bob 25, Charlie 15, Miner1 205, Unknown 0. -/
theorem C6_get_balance_spec :
    (∀ (bc : Blockchain) (address : String),
      bc.get_balance address = (bc.all_transactions.map (txContribution address)).sum ∧
      ((∀ tx ∈ bc.all_transactions, tx.sender ≠ address ∧ tx.receiver ≠ address) →
        bc.get_balance address = 0)) ∧
    (∀ (bc : Blockchain) (tg t1 t2 tr1 t3 t4 tr2 : Int),
      bc.all_transactions =
        [⟨"System", "Genesis", 0, tg⟩,
         ⟨"Alice", "Bob", 50, t1⟩, ⟨"Bob", "Charlie", 25, t2⟩,
         ⟨"System", "Miner1", 100, tr1⟩,
         ⟨"Charlie", "Alice", 10, t3⟩, ⟨"Alice", "Miner1", 5, t4⟩,
         ⟨"System", "Miner1", 100, tr2⟩] →
      bc.get_balance ("Alice") = -45 ∧ bc.get_balance ("Bob") = 25 ∧
      bc.get_balance ("Charlie") = 15 ∧ bc.get_balance ("Miner1") = 205 ∧
      bc.get_balance ("Unknown") = 0) := by
  constructor
  · intro bc address
    refine ⟨get_balance_eq_sum bc address, fun habs => ?_⟩
    rw [get_balance_eq_sum]
    refine sum_zero_of_all_zero _ fun x hx => ?_
    obtain ⟨tx, htx, rfl⟩ := List.mem_map.mp hx
    obtain ⟨hs, hr⟩ := habs tx htx
    simp [txContribution, hs, hr]
  · intro bc tg t1 t2 tr1 t3 t4 tr2 h
    refine ⟨?_, ?_, ?_, ?_, ?_⟩ <;>
      rw [get_balance_eq_sum, h] <;>
      simp [txContribution_mk]

theorem C6_get_balance_spec_witness :
    demoResult.get_balance ("Alice") = -45 ∧ demoResult.get_balance ("Bob") = 25 ∧
    demoResult.get_balance ("Charlie") = 15 ∧ demoResult.get_balance ("Miner1") = 205 ∧
    demoResult.get_balance ("Unknown") = 0 :=
  C6_get_balance_spec.2 demoResult 0 0 0 0 0 0 0 (by decide)

/-! ## Validity is preserved by mining -/

theorem getLastD_of_getLast? : ∀ (l : List Block) (g latest : Block),
    (g :: l).getLast? = some latest → l.getLastD g = latest := by
  intro l
  induction l with
  | nil =>
    intro g latest h
    simp only [List.getLast?_singleton, Option.some.injEq] at h
    simpa using h
  | cons c rest ih =>
    intro g latest h
    rw [List.getLast?_cons_cons] at h
    rw [List.getLastD_cons]
    exact ih c latest h

theorem isChainValidAux_append : ∀ (l : List Block) (g b : Block),
    isChainValidAux g (l ++ [b]) =
      (isChainValidAux g l && blockValid (l.getLastD g) b) := by
  intro l
  induction l with
  | nil => intro g b; simp [isChainValidAux]
  | cons c rest ih =>
    intro g b
    simp only [List.cons_append, List.append_eq, isChainValidAux, ih, List.getLastD_cons,
      Bool.and_assoc]

theorem is_chain_valid_of_singleton (bc : Blockchain) (g : Block) (h : bc.chain = [g]) :
    bc.is_chain_valid = true := by
  obtain ⟨chain, d, p, r⟩ := bc
  simp only at h
  subst h
  rfl

/-- A ledger that validates still validates after a successful
`mine_pending_transactions`: the appended block is freshly hashed,
correctly linked to the old last block, and meets the target. -/
theorem mine_pending_preserves_valid (bc : Blockchain) (miner : String) (tT bT : Int)
    (fuel : Nat) (bc' : Blockchain)
    (h : bc.mine_pending_transactions miner tT bT fuel = some bc')
    (hv : bc.is_chain_valid = true) : bc'.is_chain_valid = true := by
  obtain ⟨latest, nb, hlast, hc, _, _, _, _, _, hprev, _, _, hok, hpow⟩ :=
    mine_pending_spec bc miner tT bT fuel bc' h
  obtain ⟨chain, d, p, r⟩ := bc
  simp only at hlast hc hv
  cases chain with
  | nil => simp at hlast
  | cons g rest =>
    have hlastD : rest.getLastD g = latest := getLastD_of_getLast? rest g latest hlast
    obtain ⟨chain', d', p', r'⟩ := bc'
    simp only at hc
    subst hc
    have hvx : isChainValidAux g rest = true := hv
    show isChainValidAux g (rest ++ [nb]) = true
    rw [isChainValidAux_append, hvx, hlastD, Bool.true_and]
    have hbeq1 : (nb.hash == nb.calculate_hash) = true := by simpa using hok
    have hbeq2 : (nb.previous_hash == latest.hash) = true := by simpa using hprev
    simp [blockValid, hbeq1, hbeq2, hpow]

/-! ## The demo scenario -/

theorem tamper_chain3 (g x y : Block) (D : Nat) (P : List Transaction) (R a : Int) :
    Blockchain.tamperAmount ⟨[g, x, y], D, P, R⟩ 1 0 a =
      ⟨[g,
        { x with transactions := listModify (fun t => { t with amount := a }) 0 x.transactions },
        y], D, P, R⟩ := rfl

/-- C5: any run of the demo scenario that returns (difficulty 4, reward
100, the four named transfers, two mining calls for Miner1) yields a
ledger that `is_chain_valid` accepts; and after mutating
`chain[1].transactions[0].amount` to 1000, provided the tampered block's
recomputed digest differs from its stored hash (SHA-256 collision
freeness at this input, discharged concretely in the witness),
`is_chain_valid` rejects it and the first failing index reported is 1. -/
theorem C5_demo_validity_and_tamper
    (tg t1 t2 tr1 t3 t4 tr2 bg b1 b2 : Int) (f0 f1 f2 : Nat) (bc : Blockchain)
    (h : demoScenario tg t1 t2 tr1 t3 t4 tr2 bg b1 b2 f0 f1 f2 = some bc)
    (hne : ((bc.tamperAmount 1 0 1000).chain.getD 1 default).calculate_hash ≠
      ((bc.tamperAmount 1 0 1000).chain.getD 1 default).hash) :
    bc.is_chain_valid = true ∧
    (bc.tamperAmount 1 0 1000).is_chain_valid = false ∧
    (bc.tamperAmount 1 0 1000).first_invalid_index = some 1 := by
  simp only [demoScenario, Option.bind_eq_some] at h
  obtain ⟨bc0, h0, bc1, h1, h2⟩ := h
  obtain ⟨g, hg, _, _, _, _, _, _, _, _, _, _⟩ := blockchain_new_spec _ _ _ _ _ _ h0
  have hv0 : bc0.is_chain_valid = true := is_chain_valid_of_singleton bc0 g hg
  obtain ⟨latest1, nb1, _, hc1, _, _, _, _, _, _, _, _, _, _⟩ :=
    mine_pending_spec _ _ _ _ _ _ h1
  obtain ⟨latest2, nb2, _, hc2, _, _, _, _, _, _, _, _, _, _⟩ :=
    mine_pending_spec _ _ _ _ _ _ h2
  have hv1 : bc1.is_chain_valid = true := mine_pending_preserves_valid _ _ _ _ _ _ h1 hv0
  have hvb : bc.is_chain_valid = true := mine_pending_preserves_valid _ _ _ _ _ _ h2 hv1
  have hc1' : bc1.chain = [g, nb1] := by
    rw [hc1]
    show bc0.chain ++ [nb1] = _
    rw [hg]
    rfl
  have hc2' : bc.chain = [g, nb1, nb2] := by
    rw [hc2]
    show bc1.chain ++ [nb2] = _
    rw [hc1']
    rfl
  obtain ⟨chain, D, P, R⟩ := bc
  simp only at hc2'
  subst hc2'
  rw [tamper_chain3] at hne ⊢
  set tampered :=
    { nb1 with
      transactions := listModify (fun t => { t with amount := 1000 }) 0 nb1.transactions }
    with htdef
  have hne' : tampered.calculate_hash ≠ tampered.hash := by
    simpa using hne
  have hx : blockValid g tampered = false := by
    cases hbeq : (tampered.hash == tampered.calculate_hash) with
    | false => simp [blockValid, hbeq]
    | true =>
      have hx' : tampered.hash = tampered.calculate_hash := by simpa using hbeq
      exact absurd hx'.symm hne'
  refine ⟨hvb, ?_, ?_⟩
  · show isChainValidAux g [tampered, nb2] = false
    simp [isChainValidAux, hx]
  · show firstInvalidAux g [tampered, nb2] 1 = some 1
    simp [firstInvalidAux, hx]

theorem C5_demo_validity_and_tamper_witness :
    demoResult.is_chain_valid = true ∧
    (demoResult.tamperAmount 1 0 1000).is_chain_valid = false ∧
    (demoResult.tamperAmount 1 0 1000).first_invalid_index = some 1 :=
  C5_demo_validity_and_tamper 0 0 0 0 0 0 0 88476 25025 167738 0 0 0 demoResult
    (by decide) (by decide)

end RustyChain
